import Mathlib

/-!
Verification of the vkspecgen Vulkan registry loader (`vkapi/vkapi.py`)
against its natural-language specification.

The Python source is shallowly embedded: classes become structures or
inductive types, methods become functions, Python exceptions become
`Option`/`none`, and the mutable object store (where a claim depends on
object identity or in-place mutation) becomes an explicit list-indexed heap.
Python `dict`s are embedded as association lists with insert-or-overwrite
semantics (`dictInsert`), which preserves insertion order exactly as CPython
dicts do.
-/

namespace VkSpec

/-- A Python value that is either an `int` or a raw `str`.  Enum values in
the source keep the raw attribute string when `int()` raises `ValueError`. -/
inductive PyVal where
  | int (z : Int)
  | str (s : String)
deriving DecidableEq, Repr

/-- Model of Python `int(s)` (base 10) restricted to the token shapes found in
the registry: an optional leading minus sign followed by one or more decimal
digits.  Returns `none` where Python raises `ValueError`. -/
def pyIntDec (s : String) : Option Int :=
  match s.toList with
  | [] => none
  | '-' :: rest =>
      if rest ≠ [] ∧ rest.all Char.isDigit then
        some (-(Int.ofNat (rest.foldl (fun a c => 10 * a + (c.toNat - '0'.toNat)) 0)))
      else none
  | l =>
      if l.all Char.isDigit then
        some (Int.ofNat (l.foldl (fun a c => 10 * a + (c.toNat - '0'.toNat)) 0))
      else none

/-- Is `c` a hexadecimal digit? -/
def isHexDig (c : Char) : Bool :=
  c.isDigit || ('a' ≤ c && c ≤ 'f') || ('A' ≤ c && c ≤ 'F')

/-- Value of a hexadecimal digit. -/
def hexDigitVal (c : Char) : Nat :=
  if c.isDigit then c.toNat - '0'.toNat
  else if 'a' ≤ c ∧ c ≤ 'f' then c.toNat - 'a'.toNat + 10
  else c.toNat - 'A'.toNat + 10

/-- Model of Python `int(s, base=16)` as used by the source: the argument
always starts with the literal prefix `0x` followed by hex digits. -/
def pyIntHex (s : String) : Option Int :=
  match s.toList with
  | '0' :: 'x' :: rest =>
      if rest ≠ [] ∧ rest.all isHexDig then
        some (Int.ofNat (rest.foldl (fun a c => 16 * a + hexDigitVal c) 0))
      else none
  | _ => none

/-- Python `d[k]` lookup in an association-list dict: first (and, under the
dict invariant, only) binding of `k`. -/
def lookupD {α : Type} (k : String) (l : List (String × α)) : Option α :=
  (l.find? (fun p => p.1 = k)).map Prod.snd

/-- Python `d[k] = v` on an association-list dict: overwrite the existing
binding in place (keeping its position, as CPython does) or append. -/
def dictInsert {α : Type} (l : List (String × α)) (k : String) (v : α) :
    List (String × α) :=
  if k ∈ l.map Prod.fst then
    l.map (fun p => if p.1 = k then (k, v) else p)
  else l ++ [(k, v)]

/-- `len(set(a).intersection(b)) > 0` for lists of extension ids. -/
def intersects (a b : List Nat) : Bool :=
  a.any (fun x => x ∈ b)

/-- Helper for `pySplitComma`. -/
def splitCommaAux : List Char → List Char → List String
  | [], acc => [String.mk acc.reverse]
  | ',' :: rest, acc => String.mk acc.reverse :: splitCommaAux rest []
  | c :: rest, acc => splitCommaAux rest (c :: acc)

/-- Python `s.split(',')`: in particular `"".split(',') == ['']`. -/
def pySplitComma (s : String) : List String :=
  splitCommaAux s.toList []

/-! ### C2 — `Handle.is_instance_handle` (vkapi.py lines 103-115)

A handle is embedded as its name together with its (already resolved) parent
chain; `root` is a handle whose `parent` attribute resolved to `None`. -/

/-- A Vulkan handle with its resolved parent chain. -/
inductive HandleChain where
  | root (name : String)
  | node (name : String) (parent : HandleChain)
deriving DecidableEq, Repr

/-- The handle's own name. -/
def HandleChain.hname : HandleChain → String
  | .root n => n
  | .node n _ => n

/-- Embedding of `Handle.is_instance_handle`.  `none` models the
`AttributeError` Python raises when the recursion falls off a parentless
handle that is none of the three hardcoded names. -/
def is_instance_handle : HandleChain → Option Bool
  | .root n =>
      if n = "VkDevice" then some false
      else if n = "VkInstance" then some true
      else if n = "VkSwapchainKHR" then some false
      else none
  | .node n p =>
      if n = "VkDevice" then some false
      else if n = "VkInstance" then some true
      else if n = "VkSwapchainKHR" then some false
      else is_instance_handle p

/-- The parent chain (including the handle itself) contains `VkInstance`. -/
def reachesVkInstance : HandleChain → Bool
  | .root n => n = "VkInstance"
  | .node n p => n = "VkInstance" || reachesVkInstance p

/-- The three names `is_instance_handle` treats as base cases. -/
def specialHandleName (n : String) : Bool :=
  n = "VkDevice" || n = "VkInstance" || n = "VkSwapchainKHR"

/-- First base-case name met walking up the chain from the handle itself. -/
def firstSpecialHandle : HandleChain → Option String
  | .root n => if specialHandleName n then some n else none
  | .node n p => if specialHandleName n then some n else firstSpecialHandle p

/-- The real `VkDevice` handle of the Vulkan registry: its declared parent is
`VkPhysicalDevice`, whose parent is `VkInstance`. -/
def vkDeviceChain : HandleChain :=
  .node "VkDevice" (.node "VkPhysicalDevice" (.root "VkInstance"))

/-- C2 counterexample: `VkDevice`'s parent chain reaches `VkInstance` and
`VkDevice` is not `VkSwapchainKHR`, yet `is_instance_handle` returns `false`
(the code also hardcodes `VkDevice` as a non-instance handle, an exception
the claim does not state). -/
theorem c2_counterexample :
    ¬ (is_instance_handle vkDeviceChain = some true ↔
        (reachesVkInstance vkDeviceChain = true ∧
          vkDeviceChain.hname ≠ "VkSwapchainKHR")) := by
  decide

/-- C2 (amended): `is_instance_handle H` returns `true` iff walking up the
parent chain from `H` itself, the first of the hardcoded names `VkDevice`,
`VkInstance`, `VkSwapchainKHR` encountered is `VkInstance` (so `VkDevice`
and `VkSwapchainKHR` are both device-handle cut-offs, regardless of their
declared parents). -/
theorem c2_is_instance_handle_first_special (H : HandleChain) :
    is_instance_handle H = some true ↔ firstSpecialHandle H = some "VkInstance" := by
  induction H with
  | root n =>
      simp only [is_instance_handle, firstSpecialHandle, specialHandleName]
      by_cases h1 : n = "VkDevice" <;> by_cases h2 : n = "VkInstance" <;>
        by_cases h3 : n = "VkSwapchainKHR" <;> simp_all
  | node n p ih =>
      simp only [is_instance_handle, firstSpecialHandle, specialHandleName]
      by_cases h1 : n = "VkDevice" <;> by_cases h2 : n = "VkInstance" <;>
        by_cases h3 : n = "VkSwapchainKHR" <;> simp_all

/-! ### Generic lemmas about the association-list dict -/

theorem mem_dictInsert {α : Type} {l : List (String × α)} {k : String} {v : α}
    {p : String × α} (hp : p ∈ dictInsert l k v) : p ∈ l ∨ p = (k, v) := by
  unfold dictInsert at hp
  split at hp
  · rcases List.mem_map.mp hp with ⟨q, hq, hqe⟩
    by_cases h : q.1 = k
    · rw [if_pos h] at hqe
      exact Or.inr hqe.symm
    · rw [if_neg h] at hqe
      exact Or.inl (hqe ▸ hq)
  · rcases List.mem_append.mp hp with h | h
    · exact Or.inl h
    · exact Or.inr (by simpa using h)

theorem keys_map_overwrite {α : Type} (l : List (String × α)) (k : String)
    (v : α) :
    (l.map (fun p => if p.1 = k then (k, v) else p)).map Prod.fst
      = l.map Prod.fst := by
  induction l with
  | nil => rfl
  | cons q l ih =>
      simp only [List.map_cons, ih]
      by_cases h : q.1 = k
      · rw [if_pos h]; simp [h]
      · rw [if_neg h]

theorem keys_dictInsert_of_mem {α : Type} {l : List (String × α)} {k : String}
    (v : α) (hk : k ∈ l.map Prod.fst) :
    (dictInsert l k v).map Prod.fst = l.map Prod.fst := by
  unfold dictInsert
  rw [if_pos hk]
  exact keys_map_overwrite l k v

theorem dictInsert_of_not_mem {α : Type} {l : List (String × α)} {k : String}
    (v : α) (hk : k ∉ l.map Prod.fst) : dictInsert l k v = l ++ [(k, v)] := by
  unfold dictInsert
  rw [if_neg hk]

theorem mem_keys_dictInsert {α : Type} (l : List (String × α)) (k : String)
    (v : α) : k ∈ (dictInsert l k v).map Prod.fst := by
  by_cases hk : k ∈ l.map Prod.fst
  · rwa [keys_dictInsert_of_mem v hk]
  · rw [dictInsert_of_not_mem v hk, List.map_append]
    simp

theorem keys_subset_dictInsert {α : Type} (l : List (String × α)) (k : String)
    (v : α) : l.map Prod.fst ⊆ (dictInsert l k v).map Prod.fst := by
  intro n hn
  by_cases h : k ∈ l.map Prod.fst
  · rwa [keys_dictInsert_of_mem v h]
  · rw [dictInsert_of_not_mem v h, List.map_append]
    exact List.mem_append.mpr (Or.inl hn)

theorem nodup_keys_dictInsert {α : Type} {l : List (String × α)} {k : String}
    (v : α) (h : (l.map Prod.fst).Nodup) :
    ((dictInsert l k v).map Prod.fst).Nodup := by
  by_cases hk : k ∈ l.map Prod.fst
  · rwa [keys_dictInsert_of_mem v hk]
  · rw [dictInsert_of_not_mem v hk, List.map_append]
    simp only [List.map_cons, List.map_nil]
    refine List.Nodup.append h (List.nodup_singleton k) ?_
    intro a ha hb
    rw [List.mem_singleton] at hb
    exact hk (hb ▸ ha)

/-! ### C6 — `resolve_aliases` (vkapi.py lines 1088-1096)

Type entries are embedded as a sum: `BaseType`, `TypeAlias` (carrying its
resolved target), and everything else (`Struct`, `Enum`, …) collapsed into
`other`, since `resolve_aliases` only discriminates these three shapes. -/

/-- A registry type entry, as far as `resolve_aliases` can observe it. -/
inductive Ty where
  | base (name : String)
  | aliasOf (name : String) (target : Ty)
  | other (name : String)
deriving DecidableEq, Repr

/-- `Type.name`. -/
def Ty.tyName : Ty → String
  | .base n => n
  | .aliasOf n _ => n
  | .other n => n

/-- `isinstance(value, TypeAlias)`. -/
def Ty.isAliasTy : Ty → Bool
  | .aliasOf _ _ => true
  | _ => false

/-- The `while isinstance(alias, TypeAlias): alias = alias.alias` loop. -/
def Ty.stripAliases : Ty → Ty
  | .aliasOf _ t => t.stripAliases
  | t => t

/-- Embedding of `TypeAlias.is_base_type_alias` (vkapi.py lines 68-73):
follow the alias chain and test whether it ends at a `BaseType`.  (The
source only evaluates this on `TypeAlias` objects; on other variants the
short-circuit in `resolve_aliases` never reaches it.) -/
def Ty.is_base_type_alias : Ty → Bool
  | .aliasOf _ tgt =>
      match tgt.stripAliases with
      | .base _ => true
      | _ => false
  | _ => false

/-- The comprehension filter of `resolve_aliases`:
`not isinstance(value, TypeAlias) or (value.is_base_type_alias and not resolve_base_type_aliases)`. -/
def keepTypeEntry (resolveBase : Bool) (v : Ty) : Bool :=
  !v.isAliasTy || (v.is_base_type_alias && !resolveBase)

/-- Embedding of `resolve_aliases(aliased, resolve_base_type_aliases)`
(vkapi.py lines 1090-1096): a dict comprehension keyed by `value.name`,
keeping non-alias entries and (unless asked to resolve them) base-type
aliases. -/
def resolve_aliases (aliased : List (String × Ty)) (resolveBase : Bool) :
    List (String × Ty) :=
  aliased.foldl
    (fun acc kv =>
      if keepTypeEntry resolveBase kv.2 then dictInsert acc kv.2.tyName kv.2
      else acc)
    []

/-- Invariant of the `resolve_aliases` output: entries are keyed by their own
name, pass the filter, and keys are unique. -/
theorem resolve_aliases_invariant (rb : Bool) (M : List (String × Ty)) :
    (∀ p ∈ resolve_aliases M rb, p.1 = p.2.tyName ∧ keepTypeEntry rb p.2 = true) ∧
      ((resolve_aliases M rb).map Prod.fst).Nodup := by
  suffices h : ∀ (L acc : List (String × Ty)),
      (∀ p ∈ acc, p.1 = p.2.tyName ∧ keepTypeEntry rb p.2 = true) →
      ((acc.map Prod.fst).Nodup) →
      (∀ p ∈ L.foldl
          (fun acc kv =>
            if keepTypeEntry rb kv.2 then dictInsert acc kv.2.tyName kv.2
            else acc) acc,
        p.1 = p.2.tyName ∧ keepTypeEntry rb p.2 = true) ∧
        ((L.foldl
          (fun acc kv =>
            if keepTypeEntry rb kv.2 then dictInsert acc kv.2.tyName kv.2
            else acc) acc).map Prod.fst).Nodup by
    exact h M [] (by simp) (by simp)
  intro L
  induction L with
  | nil => intro acc h1 h2; exact ⟨h1, h2⟩
  | cons kv L ih =>
      intro acc h1 h2
      simp only [List.foldl_cons]
      by_cases hkeep : keepTypeEntry rb kv.2 = true
      · rw [if_pos hkeep]
        refine ih _ ?_ (nodup_keys_dictInsert kv.2 h2)
        intro p hp
        rcases mem_dictInsert hp with h | h
        · exact h1 p h
        · subst h; exact ⟨rfl, hkeep⟩
      · rw [if_neg hkeep]
        exact ih acc h1 h2

/-- Keys never disappear along the `resolve_aliases` fold. -/
theorem resolve_aliases_keys_mono (rb : Bool) (L acc : List (String × Ty)) :
    acc.map Prod.fst ⊆
      (L.foldl
        (fun acc kv =>
          if keepTypeEntry rb kv.2 then dictInsert acc kv.2.tyName kv.2
          else acc) acc).map Prod.fst := by
  induction L generalizing acc with
  | nil => intro n hn; simpa using hn
  | cons kv L ih =>
      intro n hn
      simp only [List.foldl_cons]
      by_cases hkeep : keepTypeEntry rb kv.2 = true
      · rw [if_pos hkeep]
        exact ih _ (keys_subset_dictInsert acc kv.2.tyName kv.2 hn)
      · rw [if_neg hkeep]
        exact ih _ hn

/-- Every kept input value contributes its name to the output keys. -/
theorem resolve_aliases_mem_keys (rb : Bool) (M : List (String × Ty)) :
    ∀ p ∈ M, keepTypeEntry rb p.2 = true →
      p.2.tyName ∈ (resolve_aliases M rb).map Prod.fst := by
  suffices h : ∀ (L acc : List (String × Ty)) (p : String × Ty), p ∈ L →
      keepTypeEntry rb p.2 = true →
      p.2.tyName ∈
        (L.foldl
          (fun acc kv =>
            if keepTypeEntry rb kv.2 then dictInsert acc kv.2.tyName kv.2
            else acc) acc).map Prod.fst by
    exact fun p hp hk => h M [] p hp hk
  intro L
  induction L with
  | nil => intro acc p hp; exact absurd hp (List.not_mem_nil p)
  | cons kv L ih =>
      intro acc p hp hk
      simp only [List.foldl_cons]
      rcases List.mem_cons.mp hp with h | h
      · subst h
        rw [if_pos hk]
        exact resolve_aliases_keys_mono rb L _
          (mem_keys_dictInsert acc p.2.tyName p.2)
      · exact ih _ p h hk

/-- `resolve_aliases` is the identity on its own kind of output. -/
theorem resolve_aliases_fixpoint (rb : Bool) (L : List (String × Ty))
    (h1 : ∀ p ∈ L, p.1 = p.2.tyName ∧ keepTypeEntry rb p.2 = true)
    (h2 : (L.map Prod.fst).Nodup) : resolve_aliases L rb = L := by
  suffices h : ∀ (L acc : List (String × Ty)),
      (∀ p ∈ L, p.1 = p.2.tyName ∧ keepTypeEntry rb p.2 = true) →
      (((acc ++ L).map Prod.fst).Nodup) →
      L.foldl
        (fun acc kv =>
          if keepTypeEntry rb kv.2 then dictInsert acc kv.2.tyName kv.2
          else acc) acc = acc ++ L by
    simpa using h L [] h1 (by simpa using h2)
  intro L
  induction L with
  | nil => intro acc _ _; simp
  | cons kv L ih =>
      intro acc h1 h2
      obtain ⟨hname, hkeep⟩ := h1 kv (List.mem_cons_self kv L)
      simp only [List.foldl_cons, if_pos hkeep]
      have hnotin : kv.2.tyName ∉ acc.map Prod.fst := by
        intro hmem
        rw [List.map_append] at h2
        have := (List.nodup_append.mp h2).2.2
        exact this hmem (by simp [← hname])
      rw [dictInsert_of_not_mem kv.2 hnotin, ← hname]
      have h2' : (((acc ++ [kv]) ++ L).map Prod.fst).Nodup := by
        rw [List.append_assoc]
        simpa using h2
      have := ih (acc ++ [kv]) (fun p hp => h1 p (List.mem_cons_of_mem kv hp)) h2'
      rw [this, List.append_assoc]
      simp

/-- C6: `resolve_aliases` (with `resolve_base_type_aliases` at its default
`False`) is idempotent; alias entries surviving in the result are exactly
base-type aliases, and every kept input value is present (under its own
name) in the result. -/
theorem c6_resolve_aliases_idempotent (M : List (String × Ty)) :
    resolve_aliases (resolve_aliases M false) false = resolve_aliases M false ∧
      (∀ p ∈ resolve_aliases M false,
        p.2.isAliasTy = true → p.2.is_base_type_alias = true) ∧
      (∀ p ∈ M, keepTypeEntry false p.2 = true →
        p.2.tyName ∈ (resolve_aliases M false).map Prod.fst) := by
  obtain ⟨hinv, hnodup⟩ := resolve_aliases_invariant false M
  refine ⟨resolve_aliases_fixpoint false _ hinv hnodup, ?_, resolve_aliases_mem_keys false M⟩
  intro p hp halias
  have hkeep := (hinv p hp).2
  unfold keepTypeEntry at hkeep
  rw [halias] at hkeep
  simpa using hkeep

/-! ### C7 — `parse_enum_extend` (vkapi.py lines 376-405)

The `require/enum[@extends]` element is embedded by its attributes; the
target enum contributes only its `is_bitmask` flag, which is all the
function reads from it when computing a value. -/

/-- A `require/enum[@extends]` element, by its attributes. -/
structure EnumExtendElem where
  name : String
  aliasAttr : Option String
  valueAttr : Option String
  bitposAttr : Option String
  offsetAttr : Option String
  commentAttr : Option String
deriving DecidableEq, Repr

/-- The record `parse_enum_extend` inserts into `enum.values` and returns:
either a `TypeAlias` value record or a new `EnumValue`. -/
inductive ExtEnumResult where
  | aliasVal (name target : String)
  | enumVal (name : String) (value : Int) (comment : Option String)
deriving DecidableEq, Repr

/-- Embedding of `parse_enum_extend(registry, ee, extnumber)`.  `none` models
the uncaught Python exceptions: `int(None)` when a needed attribute is
missing, `ValueError` from `int()` on a malformed literal, and the negative
shift count error from `1 << bitpos`. -/
def parse_enum_extend (enumIsBitmask : Bool) (ee : EnumExtendElem)
    (extnumber : Int) : Option ExtEnumResult :=
  match ee.aliasAttr with
  | some a => some (.aliasVal ee.name a)
  | none =>
    match ee.valueAttr with
    | some v => (pyIntDec v).map (fun z => .enumVal ee.name z ee.commentAttr)
    | none =>
      if enumIsBitmask then
        match ee.bitposAttr with
        | none => none
        | some bp =>
            (pyIntDec bp).bind fun b =>
              if 0 ≤ b then
                some (.enumVal ee.name ((2 : Int) ^ b.toNat) ee.commentAttr)
              else none
      else
        match ee.offsetAttr with
        | none => none
        | some off =>
            (pyIntDec off).map fun o =>
              .enumVal ee.name (1000000000 + (extnumber - 1) * 1000 + o)
                ee.commentAttr

/-- C7: for a `require/enum[@extends]` entry with no `alias` and no explicit
`value` attribute, the inserted enum value is `1 << bitpos` when the target
enum is a bitmask, and `1_000_000_000 + (ext_number − 1) × 1000 + offset`
otherwise. -/
theorem c7_parse_enum_extend_value (isB : Bool) (ee : EnumExtendElem)
    (extnumber : Int) (halias : ee.aliasAttr = none)
    (hvalue : ee.valueAttr = none) :
    (∀ bs b, isB = true → ee.bitposAttr = some bs → pyIntDec bs = some b →
      0 ≤ b →
      parse_enum_extend isB ee extnumber =
        some (.enumVal ee.name ((2 : Int) ^ b.toNat) ee.commentAttr)) ∧
    (∀ os o, isB = false → ee.offsetAttr = some os → pyIntDec os = some o →
      parse_enum_extend isB ee extnumber =
        some (.enumVal ee.name (1000000000 + (extnumber - 1) * 1000 + o)
          ee.commentAttr)) := by
  constructor
  · intro bs b hB hbs hb hpos
    simp [parse_enum_extend, halias, hvalue, hB, hbs, hb, hpos]
  · intro os o hB hos ho
    simp [parse_enum_extend, halias, hvalue, hB, hos, ho]

/-- Concrete extension enum element: `bitpos="3"`, `offset="4"`. -/
def c7elem : EnumExtendElem :=
  ⟨"VK_X_BIT", none, none, some "3", some "4", none⟩

/-- C7 witness: on a concrete element with `bitpos="3"` and `offset="4"`,
the bitmask branch yields `8 = 1 << 3` and the offset branch at extension
number 123 yields `1000122004`. -/
theorem c7_witness :
    parse_enum_extend true c7elem 123 =
      some (.enumVal "VK_X_BIT" 8 none) ∧
    parse_enum_extend false c7elem 123 =
      some (.enumVal "VK_X_BIT" 1000122004 none) := by
  constructor
  · have h := (c7_parse_enum_extend_value true c7elem 123 rfl rfl).1 "3" 3
      rfl rfl (by decide) (by decide)
    simpa using h
  · have h := (c7_parse_enum_extend_value false c7elem 123 rfl rfl).2 "4" 4
      rfl rfl (by decide)
    simpa using h

/-! ### C8 — `_parse_type_modifiers` / `parse_parameter_or_member`
(vkapi.py lines 408-522)

The declarator string of a member/param element is embedded as the token
stream produced by the source's regex `\bstruct\b|\bconst\b|\*|\[|:` (with
the bracketed length and the bit-field digits attached to their tokens, as
the source consumes them immediately after the match). -/

/-- One pointer/array level of a declared type (`_PointerLevel`). -/
structure PointerLevel where
  is_const : Bool
  is_fixed_array : Bool
  length : Option String
deriving DecidableEq, Repr

/-- A token of the declarator string. -/
inductive DeclTok where
  | structKw
  | constKw
  | star
  | brack (len : String)
  | colonBits (bits : Nat)
deriving DecidableEq, Repr

/-- The token-walking loop of `_parse_type_modifiers` (vkapi.py lines
427-448): a sliding `is_const` flag applies to the next pointer level;
`*` pushes a pointer level and clears the flag, `[len]` pushes a
fixed-array level (flag kept), `:` records the bit-field width. -/
def parseModifiersLoop :
    List DeclTok → Bool → List PointerLevel → Option Nat →
      List PointerLevel × Option Nat
  | [], _, levels, bits => (levels, bits)
  | .structKw :: ts, isConst, levels, bits =>
      parseModifiersLoop ts isConst levels bits
  | .constKw :: ts, _, levels, bits =>
      parseModifiersLoop ts true levels bits
  | .star :: ts, isConst, levels, bits =>
      parseModifiersLoop ts false (levels ++ [⟨isConst, false, none⟩]) bits
  | .brack len :: ts, isConst, levels, bits =>
      parseModifiersLoop ts isConst (levels ++ [⟨isConst, true, some len⟩]) bits
  | .colonBits n :: ts, isConst, levels, _ =>
      parseModifiersLoop ts isConst levels (some n)

/-- The dynamic-length assignment loop of `_parse_type_modifiers` (vkapi.py
lines 458-460): the i-th comma-separated length goes onto the i-th pointer
level.  `none` models the `assert` failure on a fixed-array level and the
`IndexError` when there are more lengths than levels. -/
def assignDynLengths :
    List PointerLevel → List String → Option (List PointerLevel)
  | ls, [] => some ls
  | [], _ :: _ => none
  | l :: ls, d :: ds =>
      if l.is_fixed_array then none
      else (assignDynLengths ls ds).map fun r => { l with length := some d } :: r

/-- A member/param element: its `<name>`/`<type>` child texts, declarator
tokens, and the attributes the parser reads. -/
structure MemberElem where
  name : String
  typeName : String
  toks : List DeclTok
  altlenAttr : Option String
  lenAttr : Option String
  valuesAttr : Option String
  optionalAttr : Option String
deriving DecidableEq, Repr

/-- The comma-separated dynamic lengths of a member: `altlen` wins over
`len`; a missing attribute gives no lengths (vkapi.py lines 450-456). -/
def memberDynLengths (me : MemberElem) : List String :=
  match me.altlenAttr with
  | some s => pySplitComma s
  | none =>
      match me.lenAttr with
      | some s => pySplitComma s
      | none => []

/-- Embedding of `_parse_type_modifiers(me)` (vkapi.py lines 415-462):
token walk followed by the `altlen`/`len` dynamic-length assignment. -/
def parse_type_modifiers (me : MemberElem) :
    Option (List PointerLevel × Option Nat) :=
  (assignDynLengths (parseModifiersLoop me.toks false [] none).1
      (memberDynLengths me)).map
    fun ls => (ls, (parseModifiersLoop me.toks false [] none).2)

/-- A fully built field type: `TypeRef` leaves and the `TypeModifier`
wrappers `Pointer`, `NextPtr`, `DynamicArray`, `FixedArray`. -/
inductive VkType where
  | ref (name : String)
  | pointer (is_const : Bool) (base : VkType)
  | nextPtr (is_const : Bool) (base : VkType)
  | dynArray (is_const : Bool) (length : String) (base : VkType)
  | fixedArray (is_const : Bool) (length : PyVal) (base : VkType)
deriving DecidableEq, Repr

/-- The `name` property: `TypeModifier.name` renders
`f"{const}{type(self).__name__}({self.base_type.name})"`. -/
def VkType.tname : VkType → String
  | .ref n => n
  | .pointer c b => (if c then "Const" else "") ++ "Pointer(" ++ b.tname ++ ")"
  | .nextPtr c b => (if c then "Const" else "") ++ "NextPtr(" ++ b.tname ++ ")"
  | .dynArray c _ b =>
      (if c then "Const" else "") ++ "DynamicArray(" ++ b.tname ++ ")"
  | .fixedArray c _ b =>
      (if c then "Const" else "") ++ "FixedArray(" ++ b.tname ++ ")"

/-- One iteration of the type-chain construction loop in
`parse_parameter_or_member` (vkapi.py lines 483-504), wrapping the current
type `t` with the modifier described by one pointer level. -/
def wrapLevel (fieldName : String) (t : VkType) (ptr : PointerLevel) :
    Option VkType :=
  if ptr.is_fixed_array then
    ptr.length.map fun l =>
      .fixedArray ptr.is_const
        (match pyIntDec l with
         | some z => .int z
         | none => .str l) t
  else
    match ptr.length with
    | some l =>
        if l = "null-terminated" then some (.ref "string")
        else some (.dynArray ptr.is_const l t)
    | none =>
        if t.tname = "void" ∧ fieldName = "pNext" then
          some (.nextPtr ptr.is_const t)
        else some (.pointer ptr.is_const t)

/-- A parsed struct member or command parameter (`Field`). -/
structure Field where
  name : String
  type : VkType
  is_optional : Bool
  is_output : Bool
  bit_size : Option Nat
  values : List String
deriving DecidableEq, Repr

/-- Embedding of `parse_parameter_or_member(registry, me, parent)`
(vkapi.py lines 467-522).  `registry.aliases` is passed as a name→name map
(for type aliases the stored object's `.name` equals its key, so the
lookup is the identity on hits, exactly as in the source). -/
def parse_parameter_or_member (aliases : List (String × String))
    (me : MemberElem) : Option Field :=
  let baseName :=
    match lookupD me.typeName aliases with
    | some n => n
    | none => me.typeName
  match parse_type_modifiers me with
  | none => none
  | some (levels, bits) =>
      (List.foldlM (fun t ptr => wrapLevel me.name t ptr)
          (VkType.ref baseName) levels.reverse).map fun t =>
        { name := me.name
          type := t
          values := (pySplitComma (me.valuesAttr.getD "")).filter (fun x => x ≠ "")
          is_optional := me.optionalAttr = some "true"
          is_output :=
            match levels.head? with
            | some l0 => !l0.is_fixed_array && !l0.is_const
            | none => false
          bit_size := bits }

/-- The claim's spec-side notion: the outermost type modifier of the
member's declared type — the first pointer level the declarator walk
produces — is a non-const pointer or (after a `len=` attribute is attached)
a non-const dynamic array, i.e. it exists, is not a fixed array and is not
const. -/
def declaredOutermostNonConstPtr (me : MemberElem) : Bool :=
  match (parseModifiersLoop me.toks false [] none).1.head? with
  | some l0 => !l0.is_fixed_array && !l0.is_const
  | none => false

/-- Assigning dynamic lengths changes only `length`, never the const or
fixed-array flags. -/
theorem assignDynLengths_flags :
    ∀ {ls : List PointerLevel} {ds : List String} {ls' : List PointerLevel},
      assignDynLengths ls ds = some ls' →
      List.Forall₂
        (fun a b : PointerLevel =>
          a.is_const = b.is_const ∧ a.is_fixed_array = b.is_fixed_array)
        ls ls' := by
  intro ls
  induction ls with
  | nil =>
      intro ds ls' h
      cases ds with
      | nil =>
          simp only [assignDynLengths, Option.some_inj] at h
          subst h; exact List.Forall₂.nil
      | cons d ds => simp [assignDynLengths] at h
  | cons l ls ih =>
      intro ds ls' h
      cases ds with
      | nil =>
          simp only [assignDynLengths, Option.some_inj] at h
          subst h
          exact List.forall₂_same.mpr (fun x _ => ⟨rfl, rfl⟩)
      | cons d ds =>
          simp only [assignDynLengths] at h
          by_cases hf : l.is_fixed_array = true
          · rw [if_pos hf] at h; exact absurd h (by simp)
          · rw [if_neg hf] at h
            rcases Option.map_eq_some'.mp h with ⟨r, hr, hre⟩
            subst hre
            exact List.Forall₂.cons ⟨rfl, rfl⟩ (ih hr)

/-- C8: a parsed member or parameter has `is_output = true` iff the
outermost modifier of its declared type is a non-const pointer or a
non-const dynamic array. -/
theorem c8_is_output_iff_outermost (aliases : List (String × String))
    (me : MemberElem) (f : Field)
    (h : parse_parameter_or_member aliases me = some f) :
    f.is_output = declaredOutermostNonConstPtr me := by
  unfold parse_parameter_or_member at h
  rcases hm : parse_type_modifiers me with _ | ⟨levels, bits⟩
  · rw [hm] at h; exact absurd h (by simp)
  · rw [hm] at h
    rcases Option.map_eq_some'.mp h with ⟨t, _, hfe⟩
    subst hfe
    unfold parse_type_modifiers at hm
    rcases Option.map_eq_some'.mp hm with ⟨ls, hls, hpair⟩
    have hlevels : ls = levels := congrArg Prod.fst hpair
    subst hlevels
    unfold declaredOutermostNonConstPtr
    generalize hL : (parseModifiersLoop me.toks false [] none).1 = L at hls ⊢
    have hflags := assignDynLengths_flags hls
    cases hflags with
    | nil => rfl
    | cons hrel _ =>
        simp only [List.head?_cons]
        rw [hrel.1, hrel.2]

/-- The parameter element `VkImage* pImage` of `vkCreateImage`. -/
def c8elem : MemberElem :=
  { name := "pImage", typeName := "VkImage", toks := [.star],
    altlenAttr := none, lenAttr := none, valuesAttr := none,
    optionalAttr := none }

/-- The field `parse_parameter_or_member` produces for `c8elem`. -/
def c8field : Field :=
  { name := "pImage", type := .pointer false (.ref "VkImage"),
    is_optional := false, is_output := true, bit_size := none, values := [] }

/-- C8 witness: on the concrete non-const pointer parameter `pImage`, the
parse succeeds and `is_output` agrees with the outermost-modifier test. -/
theorem c8_witness :
    c8field.is_output = declaredOutermostNonConstPtr c8elem :=
  c8_is_output_iff_outermost [] c8elem c8field (by decide)

/-! ### C4 — `Command.__init__` (vkapi.py lines 549-574)

`register.types[...]` for the return type is embedded by name; the element
carries both the `successcodes` and the `errorcodes` attribute, but the
constructor reads only `successcodes`. -/

/-- A `commands/command` element (non-alias form), by the parts the
constructor reads plus its `errorcodes` attribute. -/
structure CommandElemX where
  protoName : String
  protoTypeName : String
  params : List MemberElem
  successcodesAttr : Option String
  errorcodesAttr : Option String
deriving DecidableEq, Repr

/-- A parsed `Command` object.  Its attributes are exactly those
`Command.__init__` assigns: `name`, `return_type`, `parameters`,
`successcodes`, `extensions`, `feature` — there is no `errorcodes`. -/
structure CommandData where
  name : String
  return_type : String
  parameters : List Field
  successcodes : List String
  extensions : List Nat
  feature : Option String
deriving DecidableEq, Repr

/-- Embedding of `Command.__init__(registry, ce)`. -/
def parseCommand (aliases : List (String × String)) (ce : CommandElemX) :
    Option CommandData :=
  (ce.params.mapM (parse_parameter_or_member aliases)).map fun ps =>
    { name := ce.protoName
      return_type := ce.protoTypeName
      parameters := ps
      successcodes :=
        match ce.successcodesAttr with
        | some s => pySplitComma s
        | none => []
      extensions := []
      feature := none }

/-- The `vkEnumerateDeviceLayerProperties` element with its real
`successcodes` and `errorcodes` attributes. -/
def c4elemA : CommandElemX :=
  { protoName := "vkEnumerateDeviceLayerProperties",
    protoTypeName := "VkResult", params := [],
    successcodesAttr := some "VK_SUCCESS,VK_INCOMPLETE",
    errorcodesAttr :=
      some "VK_ERROR_OUT_OF_HOST_MEMORY,VK_ERROR_OUT_OF_DEVICE_MEMORY" }

/-- The same element with the `errorcodes` attribute removed. -/
def c4elemB : CommandElemX :=
  { protoName := "vkEnumerateDeviceLayerProperties",
    protoTypeName := "VkResult", params := [],
    successcodesAttr := some "VK_SUCCESS,VK_INCOMPLETE",
    errorcodesAttr := none }

/-- C4: `Command.__init__` drops the `errorcodes` attribute entirely — two
command elements that differ only in `errorcodes` parse to identical
`Command` objects (which therefore cannot carry the error-code list the
repo's own test `test_registry.py:450` reads), while `successcodes` is
parsed as claimed. -/
theorem c4_errorcodes_dropped :
    parseCommand [] c4elemA = parseCommand [] c4elemB ∧
      c4elemA.errorcodesAttr ≠ c4elemB.errorcodesAttr ∧
      (parseCommand [] c4elemA).map CommandData.successcodes =
        some ["VK_SUCCESS", "VK_INCOMPLETE"] := by
  refine ⟨rfl, by decide, by decide⟩

/-! ### C5 — `Enum.__init__` value decoding and `Enum.get_integer_values`
(vkapi.py lines 137-192)

`get_integer_values` is modelled after `Registry.__parse_features` has
resolved value-level aliases, so an alias entry is followed through the
enum's value map (the source follows the patched object references; here
the map plays the role of the object graph, with fuel bounding any acyclic
chain). -/

/-- Python `s.startswith("0x")`. -/
def startsWith0x (s : String) : Bool :=
  match s.toList with
  | '0' :: 'x' :: _ => true
  | _ => false

/-- An `<enum>` child element of an `<enums>` block, by its attributes. -/
structure EnumChildElem where
  name : String
  aliasAttr : Option String
  bitposAttr : Option String
  valueAttr : Option String
  commentAttr : Option String
deriving DecidableEq, Repr

/-- An entry of `Enum.values`: an `EnumValue` (with its decoded-or-raw
value and optional comment) or a value-level `TypeAlias` naming its
target. -/
inductive RawEnumEntry where
  | val (v : PyVal) (comment : Option String)
  | aliasTo (target : String)
deriving DecidableEq, Repr

/-- Decoding of a `bitpos` attribute: `ev = 1 << int(str_v, base)` with the
raw string kept on `ValueError` (malformed literal or negative shift). -/
def decodeBitposVal (bp : String) : PyVal :=
  if startsWith0x bp then
    match pyIntHex bp with
    | some n => .int ((2 : Int) ^ n.toNat)
    | none => .str bp
  else
    match pyIntDec bp with
    | some z => if 0 ≤ z then .int ((2 : Int) ^ z.toNat) else .str bp
    | none => .str bp

/-- Decoding of a `value` attribute: `ev = int(str_v, base)` with the raw
string kept on `ValueError`. -/
def decodeValueVal (v : String) : PyVal :=
  if startsWith0x v then
    match pyIntHex v with
    | some z => .int z
    | none => .str v
  else
    match pyIntDec v with
    | some z => .int z
    | none => .str v

/-- Embedding of the per-`<enum>`-element body of `Enum.__init__` (vkapi.py
lines 156-181).  The `try/except ValueError` keeps the raw string when
`int()` fails or when `1 << bitpos` gets a negative shift count; a missing
`value` and `bitpos` is the uncaught `AttributeError` on
`None.startswith`, modelled as `none`. -/
def parseEnumChild (ee : EnumChildElem) : Option RawEnumEntry :=
  match ee.aliasAttr with
  | some a => some (.aliasTo a)
  | none =>
      match ee.bitposAttr with
      | some bp => some (.val (decodeBitposVal bp) ee.commentAttr)
      | none =>
          match ee.valueAttr with
          | none => none
          | some v => some (.val (decodeValueVal v) ee.commentAttr)

/-- The `for ee in te.findall('enum')` loop of `Enum.__init__` building
`self.values` in insertion order. -/
def parseEnumValues (children : List EnumChildElem) :
    Option (List (String × RawEnumEntry)) :=
  children.foldlM
    (fun acc ee => (parseEnumChild ee).map fun e => dictInsert acc ee.name e)
    []

/-- `TypeAlias.resolve_type().value` on a value-level alias, following the
(feature-resolved) alias references through the enum's value map.  `none`
models the `AttributeError`/divergence of an unresolvable alias. -/
def resolveEntryValue (m : List (String × RawEnumEntry)) :
    Nat → RawEnumEntry → Option PyVal
  | _, .val v _ => some v
  | 0, .aliasTo _ => none
  | fuel + 1, .aliasTo t =>
      match lookupD t m with
      | some e => resolveEntryValue m fuel e
      | none => none

/-- The `for v in self.values.values()` loop of `get_integer_values`,
resolving each entry against the enum's value map `env`. -/
def getIntValsAux (env : List (String × RawEnumEntry)) (fuel : Nat) :
    List (String × RawEnumEntry) → Option (List (String × PyVal))
  | [] => some []
  | p :: rest =>
      match resolveEntryValue env fuel p.2 with
      | none => none
      | some v =>
          match getIntValsAux env fuel rest with
          | none => none
          | some tail => some ((p.1, v) :: tail)

/-- Embedding of `Enum.get_integer_values` (vkapi.py lines 183-192): a
name→value dictionary with value-level aliases resolved (the map's keys
equal each entry's own name, so the built dict lists the entries in
order). -/
def get_integer_values (m : List (String × RawEnumEntry)) :
    Option (List (String × PyVal)) :=
  getIntValsAux m m.length m

/-- All dictionary values are integers. -/
def allIntsVals (l : List (String × PyVal)) : Bool :=
  l.all fun p =>
    match p.2 with
    | .int _ => true
    | .str _ => false

/-- An enum element with a value Python's `int()` rejects, like the
registry's `<enum value="(~0U)" .../>` entries. -/
def c5child : EnumChildElem := ⟨"VK_X", none, none, some "(~0U)", none⟩

/-- C5 counterexample: an enum whose `value` attribute fails integer
decoding keeps the raw string, and `get_integer_values` returns that
string — not every entry of the returned dictionary is an integer. -/
theorem c5_counterexample :
    (parseEnumValues [c5child]).bind get_integer_values =
      some [("VK_X", PyVal.str "(~0U)")] ∧
    allIntsVals [("VK_X", PyVal.str "(~0U)")] = false :=
  ⟨rfl, rfl⟩

/-- Does the element's value/bitpos attribute decode to an integer (with a
non-negative shift for `bitpos`)?  Alias elements carry no literal. -/
def enumChildDecodes (ee : EnumChildElem) : Bool :=
  match ee.aliasAttr with
  | some _ => true
  | none =>
      match ee.bitposAttr with
      | some bp =>
          if startsWith0x bp then (pyIntHex bp).isSome
          else
            match pyIntDec bp with
            | some z => decide (0 ≤ z)
            | none => false
      | none =>
          match ee.valueAttr with
          | some v =>
              if startsWith0x v then (pyIntHex v).isSome else (pyIntDec v).isSome
          | none => false

/-- An entry whose leaf value (if it is a leaf) is an integer. -/
def entryGoodB : RawEnumEntry → Bool
  | .val (.int _) _ => true
  | .val (.str _) _ => false
  | .aliasTo _ => true

theorem decodeBitposVal_int (bp : String)
    (h : (if startsWith0x bp then (pyIntHex bp).isSome
          else
            match pyIntDec bp with
            | some z => decide (0 ≤ z)
            | none => false) = true) :
    ∃ z, decodeBitposVal bp = PyVal.int z := by
  unfold decodeBitposVal
  by_cases hx : startsWith0x bp = true
  · rw [if_pos hx] at h ⊢
    rcases hh : pyIntHex bp with _ | n
    · rw [hh] at h; simp at h
    · simp only [hh]
      exact ⟨_, rfl⟩
  · rw [if_neg hx] at h ⊢
    rcases hh : pyIntDec bp with _ | z
    · rw [hh] at h; simp at h
    · simp only [hh] at h ⊢
      have hz : (0 : Int) ≤ z := by simpa using h
      rw [if_pos hz]
      exact ⟨_, rfl⟩

theorem decodeValueVal_int (v : String)
    (h : (if startsWith0x v then (pyIntHex v).isSome
          else (pyIntDec v).isSome) = true) :
    ∃ z, decodeValueVal v = PyVal.int z := by
  unfold decodeValueVal
  by_cases hx : startsWith0x v = true
  · rw [if_pos hx] at h ⊢
    rcases hh : pyIntHex v with _ | z
    · rw [hh] at h; simp at h
    · simp only [hh]
      exact ⟨z, rfl⟩
  · rw [if_neg hx] at h ⊢
    rcases hh : pyIntDec v with _ | z
    · rw [hh] at h; simp at h
    · simp only [hh]
      exact ⟨z, rfl⟩

theorem parseEnumChild_good {ee : EnumChildElem} {e : RawEnumEntry}
    (hdec : enumChildDecodes ee = true) (hp : parseEnumChild ee = some e) :
    entryGoodB e = true := by
  rcases ha : ee.aliasAttr with _ | a
  · rcases hb : ee.bitposAttr with _ | bp
    · rcases hv : ee.valueAttr with _ | v
      · simp [parseEnumChild, ha, hb, hv] at hp
      · simp only [parseEnumChild, enumChildDecodes, ha, hb, hv,
          Option.some_inj] at hdec hp
        obtain ⟨z, hz⟩ := decodeValueVal_int v hdec
        rw [← hp, hz]
        rfl
    · simp only [parseEnumChild, enumChildDecodes, ha, hb,
        Option.some_inj] at hdec hp
      obtain ⟨z, hz⟩ := decodeBitposVal_int bp hdec
      rw [← hp, hz]
      rfl
  · simp only [parseEnumChild, ha, Option.some_inj] at hp
    rw [← hp]
    rfl

theorem parseEnumValues_good {children : List EnumChildElem}
    {entries : List (String × RawEnumEntry)}
    (hdec : ∀ ee ∈ children, enumChildDecodes ee = true)
    (hp : parseEnumValues children = some entries) :
    ∀ p ∈ entries, entryGoodB p.2 = true := by
  suffices h : ∀ (cs : List EnumChildElem) (acc out : List (String × RawEnumEntry)),
      (∀ ee ∈ cs, enumChildDecodes ee = true) →
      (∀ p ∈ acc, entryGoodB p.2 = true) →
      cs.foldlM
        (fun acc ee => (parseEnumChild ee).map fun e => dictInsert acc ee.name e)
        acc = some out →
      ∀ p ∈ out, entryGoodB p.2 = true by
    exact h children [] entries hdec (by simp) hp
  intro cs
  induction cs with
  | nil =>
      intro acc out _ hacc hfold
      simp only [List.foldlM_nil, Option.pure_def, Option.some_inj] at hfold
      subst hfold; exact hacc
  | cons ee cs ih =>
      intro acc out hdec' hacc hfold
      simp only [List.foldlM_cons] at hfold
      rcases hc : parseEnumChild ee with _ | e
      · rw [hc] at hfold; exact absurd hfold (by simp)
      · rw [hc] at hfold
        simp only [Option.map_some', Option.bind_some] at hfold
        refine ih _ out (fun x hx => hdec' x (List.mem_cons_of_mem ee hx)) ?_ hfold
        intro p hp
        rcases mem_dictInsert hp with h | h
        · exact hacc p h
        · subst h
          exact parseEnumChild_good (hdec' ee (List.mem_cons_self ee cs)) hc

theorem lookupD_mem {α : Type} {k : String} {m : List (String × α)} {x : α}
    (h : lookupD k m = some x) : ∃ q ∈ m, q.1 = k ∧ q.2 = x := by
  unfold lookupD at h
  rcases Option.map_eq_some'.mp h with ⟨q, hq, hqe⟩
  exact ⟨q, List.mem_of_find?_eq_some hq, by simpa using List.find?_some hq, hqe⟩

theorem resolveEntryValue_int {m : List (String × RawEnumEntry)}
    (hm : ∀ p ∈ m, entryGoodB p.2 = true) :
    ∀ (fuel : Nat) (e : RawEnumEntry) (v : PyVal), entryGoodB e = true →
      resolveEntryValue m fuel e = some v → ∃ z, v = PyVal.int z := by
  intro fuel
  induction fuel with
  | zero =>
      intro e v hg hr
      cases e with
      | val w c =>
          simp only [resolveEntryValue, Option.some_inj] at hr
          subst hr
          cases w with
          | int z => exact ⟨z, rfl⟩
          | str s => exact absurd hg (by simp [entryGoodB])
      | aliasTo t => exact absurd hr (by simp [resolveEntryValue])
  | succ fuel ih =>
      intro e v hg hr
      cases e with
      | val w c =>
          simp only [resolveEntryValue, Option.some_inj] at hr
          subst hr
          cases w with
          | int z => exact ⟨z, rfl⟩
          | str s => exact absurd hg (by simp [entryGoodB])
      | aliasTo t =>
          simp only [resolveEntryValue] at hr
          rcases hl : lookupD t m with _ | e'
          · rw [hl] at hr; exact absurd hr (by simp)
          · rw [hl] at hr
            rcases lookupD_mem hl with ⟨q, hq, _, hq2⟩
            exact ih e' v (hq2 ▸ hm q hq) hr

theorem getIntegerValues_all_int (children : List EnumChildElem)
    (entries : List (String × RawEnumEntry))
    (result : List (String × PyVal))
    (hdec : ∀ ee ∈ children, enumChildDecodes ee = true)
    (hp : parseEnumValues children = some entries)
    (hg : get_integer_values entries = some result) :
    ∀ p ∈ result, ∃ z, p.2 = PyVal.int z := by
  have hgood := parseEnumValues_good hdec hp
  unfold get_integer_values at hg
  suffices h : ∀ (l : List (String × RawEnumEntry)) (fuel : Nat)
      (result : List (String × PyVal)),
      (∀ p ∈ l, entryGoodB p.2 = true) →
      getIntValsAux entries fuel l = some result →
      ∀ p ∈ result, ∃ z, p.2 = PyVal.int z by
    exact h entries entries.length result hgood hg
  intro l
  induction l with
  | nil =>
      intro fuel result _ hx
      simp only [getIntValsAux, Option.some_inj] at hx
      subst hx; intro p hp; exact absurd hp (List.not_mem_nil p)
  | cons q l ih =>
      intro fuel result hl hx
      rcases hr : resolveEntryValue entries fuel q.2 with _ | v
      · simp [getIntValsAux, hr] at hx
      · rcases hrest : getIntValsAux entries fuel l with _ | tail
        · simp [getIntValsAux, hr, hrest] at hx
        · simp only [getIntValsAux, hr, hrest, Option.some_inj] at hx
          subst hx
          intro p hp
          rcases List.mem_cons.mp hp with h | h
          · subst h
            exact resolveEntryValue_int hgood fuel q.2 v
              (hl q (List.mem_cons_self q l)) hr
          · exact ih fuel tail (fun x hx' => hl x (List.mem_cons_of_mem q hx'))
              hrest p h

/-- C5 (amended): `get_integer_values` returns a name→value dictionary with
value-level aliases resolved, and every returned value is an integer
provided every element's `value`/`bitpos` literal decoded as an integer;
elements whose decoding failed are retained with their raw string (so the
unconditional claim does not hold). -/
theorem c5_get_integer_values_ints (children : List EnumChildElem)
    (entries : List (String × RawEnumEntry))
    (result : List (String × PyVal))
    (hdec : ∀ ee ∈ children, enumChildDecodes ee = true)
    (hp : parseEnumValues children = some entries)
    (hg : get_integer_values entries = some result) :
    allIntsVals result = true := by
  have h := getIntegerValues_all_int children entries result hdec hp hg
  rw [allIntsVals, List.all_eq_true]
  intro p hp'
  obtain ⟨z, hz⟩ := h p hp'
  rw [hz]

/-- Concrete enum: a literal value `7` and an alias to it. -/
def c5goodChildren : List EnumChildElem :=
  [⟨"VK_A", none, none, some "7", none⟩, ⟨"VK_B", some "VK_A", none, none, none⟩]

/-- C5 witness: on a concrete enum with a decodable value and a value-level
alias, every entry of `get_integer_values` is an integer. -/
theorem c5_witness :
    allIntsVals [("VK_A", PyVal.int 7), ("VK_B", PyVal.int 7)] = true :=
  c5_get_integer_values_ints c5goodChildren
    [("VK_A", RawEnumEntry.val (PyVal.int 7) none),
     ("VK_B", RawEnumEntry.aliasTo "VK_A")]
    [("VK_A", PyVal.int 7), ("VK_B", PyVal.int 7)]
    (by decide) (by decide) (by decide)

/-! ### C1 — enum filtering mutates in place
(`Registry.__filter_registry` → `Registry.__filter_type_by_extensions`,
vkapi.py lines 996-1030 and 1051-1067)

To express object identity and in-place mutation, enum objects live in an
explicit heap (a list indexed by address) and the registry's `types` dict
maps names to addresses.  `__filter_type` (lines 973-993), the variant that
copies, is dead code: the registry filter calls only
`__filter_type_by_extensions`, which deletes from `t.values` in place. -/

/-- An `Enum` object: its name, its value map (value name → the extension
ids tagged on that value), and the enum's own extension tags. -/
structure EnumObjH where
  ename : String
  values : List (String × List Nat)
  extensions : List Nat
deriving DecidableEq, Repr

/-- The value-pruning loop of `__filter_type_by_extensions` (vkapi.py lines
1020-1029): a value is kept iff it has no extension provenance or at least
one of its extensions is in the selected set. -/
def filter_enum_values (extSet : List Nat) (vals : List (String × List Nat)) :
    List (String × List Nat) :=
  vals.filter fun p => p.2.isEmpty || intersects extSet p.2

/-- Embedding of `__filter_type_by_extensions` on an `Enum`: the object at
address `a` is overwritten with its pruned value map (the `del
t.values[en]` statements mutate the stored object). -/
def filter_type_by_extensions (extSet : List Nat) (heap : List EnumObjH)
    (a : Nat) : List EnumObjH :=
  match heap.get? a with
  | some e => heap.set a { e with values := filter_enum_values extSet e.values }
  | none => heap

/-- A registry restricted to its enum types: the `types` dict (name →
heap address) and the heap of `Enum` objects. -/
structure RegistryH where
  typeAddrs : List (String × Nat)
  heap : List EnumObjH
deriving DecidableEq, Repr

/-- Embedding of the type loop of `__filter_registry` (vkapi.py lines
1051-1067) on enums: extension-tagged types are kept (and filtered in
place) iff they intersect the selected set, core types iff the author
filter admits core (`coreKept`); dropped types lose their dict entry but
their heap object stays where it is. -/
def filter_registry (extSet : List Nat) (coreKept : Bool) (R : RegistryH) :
    RegistryH :=
  let r := R.typeAddrs.foldl
    (fun (acc : List (String × Nat) × List EnumObjH) (p : String × Nat) =>
      match acc.2.get? p.2 with
      | none => acc
      | some t =>
          if t.extensions ≠ [] then
            if intersects extSet t.extensions then
              (acc.1 ++ [p], filter_type_by_extensions extSet acc.2 p.2)
            else acc
          else if coreKept then
            (acc.1 ++ [p], filter_type_by_extensions extSet acc.2 p.2)
          else acc)
    ([], R.heap)
  ⟨r.1, r.2⟩

/-- A core enum (think `VkResult`) holding one core value and one value
contributed by extension 5. -/
def c1enum : EnumObjH := ⟨"VkResult", [("VK_OK", []), ("VK_ERR_EXT", [5])], []⟩

/-- A registry holding just `c1enum` at address 0. -/
def c1reg : RegistryH := ⟨[("VkResult", 0)], [c1enum]⟩

/-- C1 counterexample: filtering with extension 5 deselected rewrites the
enum object at its original address — the unfiltered enum's value map is
damaged, not preserved on a shallow copy. -/
theorem c1_counterexample :
    (filter_registry [] true c1reg).heap.get? 0 =
      some ⟨"VkResult", [("VK_OK", [])], []⟩ ∧
    c1reg.heap.get? 0 =
      some ⟨"VkResult", [("VK_OK", []), ("VK_ERR_EXT", [5])], []⟩ ∧
    (filter_registry [] true c1reg).heap.get? 0 ≠ c1reg.heap.get? 0 := by
  refine ⟨rfl, rfl, by decide⟩

theorem list_get?_lt {α : Type} :
    ∀ (l : List α) (i : Nat) (x : α), l.get? i = some x → i < l.length
  | [], i, x, h => by simp [List.get?] at h
  | _ :: _, 0, _, _ => by simp
  | _ :: l, i + 1, x, h =>
      Nat.succ_lt_succ (list_get?_lt l i x (by simpa [List.get?] using h))

theorem list_get?_set_self {α : Type} :
    ∀ (l : List α) (i : Nat) (x : α), i < l.length →
      (l.set i x).get? i = some x
  | [], _, _, h => absurd h (by simp)
  | _ :: _, 0, _, _ => rfl
  | _ :: l, i + 1, x, h =>
      list_get?_set_self l i x (by simpa using h)

/-- C1 (amended): the filter prunes extension-contributed enum values by
mutating the enum's value map in place — after
`__filter_type_by_extensions`, the object at the enum's address holds
exactly the original values whose extension provenance is empty or
intersects the selected set; the original unfiltered value map is not
preserved (the shallow-copying `__filter_type` is never invoked by the
filter). -/
theorem c1_filter_prunes_in_place (extSet : List Nat) (heap : List EnumObjH)
    (a : Nat) (e : EnumObjH) (he : heap.get? a = some e) :
    (filter_type_by_extensions extSet heap a).get? a =
      some { e with values := filter_enum_values extSet e.values } := by
  unfold filter_type_by_extensions
  rw [he]
  exact list_get?_set_self heap a _ (list_get?_lt heap a e he)

/-- C1 witness: the in-place pruning theorem applied to the concrete
one-enum heap. -/
theorem c1_witness :
    (filter_type_by_extensions [] [c1enum] 0).get? 0 =
      some ⟨"VkResult", [("VK_OK", [])], []⟩ :=
  c1_filter_prunes_in_place [] [c1enum] 0 c1enum rfl

/-! ### C3 — the `structextends` / `extendedby` mirror
(`Registry.__parse_types` lines 851-864, `__filter_type_by_extensions`
lines 996-1019)

Structs are keyed by their (unique) names; the source's object references
become name lookups, which coincide under the name-uniqueness hypothesis. -/

/-- A `Struct` as the mirror invariant sees it. -/
structure StructT where
  sname : String
  structextends : List String
  extendedby : List String
  extensions : List Nat
deriving DecidableEq, Repr

/-- Embedding of the `extendedby` fix-up at the end of `__parse_types`
(vkapi.py lines 855-864): structs enter this pass fresh from
`Struct.__init__` with empty `extendedby`; each struct `S` appends itself
to `types[se].extendedby` for each of its `structextends` targets, with a
duplicate guard, so `T.extendedby` ends as the structs (in registry order)
whose `structextends` contain `T`. -/
def parseExtendedBy (structs : List StructT) : List StructT :=
  structs.map fun t =>
    { t with extendedby := ((structs.filter
        (fun s => t.sname ∈ s.structextends)).map StructT.sname) }

/-- `len(eb.extensions) == 0 or intersection nonempty`: the per-reference
keep test inside the Struct branch of `__filter_type_by_extensions`. -/
def keepRefB (extSet : List Nat) (s : StructT) : Bool :=
  s.extensions.isEmpty || intersects extSet s.extensions

/-- The keep test `__filter_registry` applies to a type itself. -/
def keptInRegistry (extSet : List Nat) (coreKept : Bool) (s : StructT) : Bool :=
  if s.extensions.isEmpty then coreKept else intersects extSet s.extensions

/-- Whether a referenced struct passes the per-reference keep test; the
reference is resolved by name against the pre-filter struct list (in the
source the lists hold the objects themselves). -/
def refSurvives (structs : List StructT) (extSet : List Nat) (n : String) :
    Bool :=
  match structs.find? (fun s => s.sname = n) with
  | some s => keepRefB extSet s
  | none => true

/-- Embedding of the struct part of `__filter_registry`: drop structs that
fail the registry keep test and rewrite the survivors' `extendedby` and
`structextends` lists, keeping references whose target passes the
per-reference test (judged on the unmodified extension tags). -/
def filter_registry_structs (extSet : List Nat) (coreKept : Bool)
    (structs : List StructT) : List StructT :=
  (structs.filter (keptInRegistry extSet coreKept)).map fun t =>
    { t with
      extendedby := t.extendedby.filter (refSurvives structs extSet),
      structextends := t.structextends.filter (refSurvives structs extSet) }

/-- The bidirectional mirror: `S ∈ T.extendedby ⇔ T ∈ S.structextends`. -/
def mirrorP (structs : List StructT) : Prop :=
  ∀ S ∈ structs, ∀ T ∈ structs,
    (S.sname ∈ T.extendedby ↔ T.sname ∈ S.structextends)

theorem parseExtendedBy_names (structs : List StructT) :
    (parseExtendedBy structs).map StructT.sname = structs.map StructT.sname := by
  unfold parseExtendedBy
  rw [List.map_map]
  rfl

theorem find?_sname_self :
    ∀ {structs : List StructT}, ((structs.map StructT.sname).Nodup) →
      ∀ {S : StructT}, S ∈ structs →
        structs.find? (fun s => s.sname = S.sname) = some S := by
  intro structs
  induction structs with
  | nil => intro _ S hS; exact absurd hS (List.not_mem_nil S)
  | cons a l ih =>
      intro hnodup S hS
      simp only [List.map_cons, List.nodup_cons] at hnodup
      rcases List.mem_cons.mp hS with h | h
      · subst h
        simp [List.find?]
      · by_cases he : a.sname = S.sname
        · exact absurd (he ▸ List.mem_map_of_mem StructT.sname h) hnodup.1
        · have hd : decide (a.sname = S.sname) = false := by simpa using he
          simp only [List.find?, hd]
          exact ih hnodup.2 h

/-- After the parse fix-up, the mirror holds. -/
theorem parseExtendedBy_mirror (structs0 : List StructT)
    (hnodup : (structs0.map StructT.sname).Nodup) :
    mirrorP (parseExtendedBy structs0) := by
  intro S' hS' T' hT'
  rcases List.mem_map.mp hS' with ⟨S, hS, hSe⟩
  rcases List.mem_map.mp hT' with ⟨T, hT, hTe⟩
  subst hSe hTe
  simp only
  constructor
  · intro hmem
    rcases List.mem_map.mp hmem with ⟨s, hsf, hse⟩
    have hs2 := List.mem_filter.mp hsf
    have hseq : s = S :=
      List.inj_on_of_nodup_map hnodup hs2.1 hS hse
    subst hseq
    simpa using hs2.2
  · intro hmem
    refine List.mem_map.mpr ⟨S, List.mem_filter.mpr ⟨hS, ?_⟩, rfl⟩
    simpa using hmem

/-- A surviving struct passes the per-reference keep test. -/
theorem keptInRegistry_keepRef {extSet : List Nat} {coreKept : Bool}
    {s : StructT} (h : keptInRegistry extSet coreKept s = true) :
    keepRefB extSet s = true := by
  unfold keptInRegistry at h
  unfold keepRefB
  by_cases he : s.extensions.isEmpty = true
  · simp [he]
  · rw [if_neg he] at h
    simp [h]

/-- C3: after parsing the mirror `S ∈ T.extendedby ⇔ T ∈ S.structextends`
holds between all structs of the registry, and the filter engine preserves
it between the surviving structs. -/
theorem c3_structextends_mirror (structs0 : List StructT) (extSet : List Nat)
    (coreKept : Bool) (hnodup : (structs0.map StructT.sname).Nodup) :
    mirrorP (parseExtendedBy structs0) ∧
      mirrorP (filter_registry_structs extSet coreKept
        (parseExtendedBy structs0)) := by
  have hparsedNodup :
      ((parseExtendedBy structs0).map StructT.sname).Nodup := by
    rw [parseExtendedBy_names]; exact hnodup
  have hmirror := parseExtendedBy_mirror structs0 hnodup
  refine ⟨hmirror, ?_⟩
  intro S'' hS'' T'' hT''
  unfold filter_registry_structs at hS'' hT''
  rcases List.mem_map.mp hS'' with ⟨S', hSf, hSe⟩
  rcases List.mem_map.mp hT'' with ⟨T', hTf, hTe⟩
  subst hSe hTe
  have hSkeep := List.mem_filter.mp hSf
  have hTkeep := List.mem_filter.mp hTf
  simp only
  have hSref : refSurvives (parseExtendedBy structs0) extSet S'.sname = true := by
    unfold refSurvives
    rw [find?_sname_self hparsedNodup hSkeep.1]
    exact keptInRegistry_keepRef hSkeep.2
  have hTref : refSurvives (parseExtendedBy structs0) extSet T'.sname = true := by
    unfold refSurvives
    rw [find?_sname_self hparsedNodup hTkeep.1]
    exact keptInRegistry_keepRef hTkeep.2
  constructor
  · intro hmem
    have h2 := List.mem_filter.mp hmem
    exact List.mem_filter.mpr
      ⟨(hmirror S' hSkeep.1 T' hTkeep.1).mp h2.1, hTref⟩
  · intro hmem
    have h2 := List.mem_filter.mp hmem
    exact List.mem_filter.mpr
      ⟨(hmirror S' hSkeep.1 T' hTkeep.1).mpr h2.1, hSref⟩

/-- A two-struct registry: `VkA` (tagged with extension 7) extends core
struct `VkB`. -/
def c3structs : List StructT :=
  [⟨"VkA", ["VkB"], [], [7]⟩, ⟨"VkB", [], [], []⟩]

/-- C3 witness: the filter-phase mirror instantiated on the concrete
two-struct registry, with extension 7 selected and core kept. -/
theorem c3_witness :
    ((StructT.mk "VkA" ["VkB"] [] [7]).sname ∈
        (StructT.mk "VkB" [] ["VkA"] []).extendedby ↔
      (StructT.mk "VkB" [] ["VkA"] []).sname ∈
        (StructT.mk "VkA" ["VkB"] [] [7]).structextends) := by
  have hl : filter_registry_structs [7] true (parseExtendedBy c3structs) =
      [⟨"VkA", ["VkB"], [], [7]⟩, ⟨"VkB", [], ["VkA"], []⟩] := rfl
  exact (c3_structextends_mirror c3structs [7] true (by decide)).2
    ⟨"VkA", ["VkB"], [], [7]⟩ (by rw [hl]; exact List.mem_cons_self _ _)
    ⟨"VkB", [], ["VkA"], []⟩
    (by rw [hl]; exact List.mem_cons_of_mem _ (List.mem_cons_self _ _))

/-! ### C9 — `TypeAlias.resolve_type` terminates on a DAG
(vkapi.py lines 61-66)

After reference resolution every `TypeAlias.alias` points at another type
object; the alias graph is embedded as a name→name map (names are unique
registry keys), and the `while isinstance(ta, TypeAlias)` loop as a fuelled
walk.  Termination is: enough fuel (the number of aliases) makes the result
stable and lands on a non-alias. -/

/-- One dereference of `ta.alias`: `some` iff `n` names a `TypeAlias`. -/
def aliasStep (env : List (String × String)) (n : String) : Option String :=
  lookupD n env

/-- Embedding of `TypeAlias.resolve_type`'s `while` loop, with fuel. -/
def resolve_type (env : List (String × String)) : Nat → String → String
  | 0, n => n
  | fuel + 1, n =>
      match aliasStep env n with
      | some t => resolve_type env fuel t
      | none => n

/-- `k` dereferences from `n`. -/
def stepN (env : List (String × String)) : Nat → String → Option String
  | 0, n => some n
  | k + 1, n => (aliasStep env n).bind (stepN env k)

/-- The alias graph has no directed cycle. -/
def AcyclicAliases (env : List (String × String)) : Prop :=
  ∀ n k, 0 < k → stepN env k n ≠ some n

theorem stepN_add (env : List (String × String)) (a b : Nat) :
    ∀ n, stepN env (a + b) n = (stepN env a n).bind (stepN env b) := by
  induction a with
  | zero => intro n; simp [stepN, Nat.zero_add]
  | succ a ih =>
      intro n
      rw [Nat.succ_add]
      simp only [stepN]
      rcases aliasStep env n with _ | t
      · simp
      · simp [ih]

theorem aliasStep_ne_none_mem {env : List (String × String)} {m : String}
    (h : aliasStep env m ≠ none) : m ∈ env.map Prod.fst := by
  rcases hs : aliasStep env m with _ | t
  · exact absurd hs h
  · rcases lookupD_mem hs with ⟨q, hq, hq1, _⟩
    exact hq1 ▸ List.mem_map_of_mem Prod.fst hq

theorem resolve_type_stable (env : List (String × String)) {r : String}
    (hstop : aliasStep env r = none) : ∀ g, resolve_type env g r = r
  | 0 => rfl
  | g + 1 => by simp [resolve_type, hstop]

theorem resolve_type_run (env : List (String × String)) :
    ∀ (k : Nat) (n r : String), stepN env k n = some r →
      aliasStep env r = none → ∀ g, k ≤ g → resolve_type env g n = r := by
  intro k
  induction k with
  | zero =>
      intro n r hs hstop g _
      simp only [stepN, Option.some_inj] at hs
      subst hs
      exact resolve_type_stable env hstop g
  | succ k ih =>
      intro n r hs hstop g hg
      simp only [stepN] at hs
      rcases ha : aliasStep env n with _ | t
      · rw [ha] at hs; exact absurd hs (by simp)
      · rw [ha] at hs
        simp only [Option.some_bind] at hs
        rcases g with _ | g'
        · omega
        · show resolve_type env (g' + 1) n = r
          simp only [resolve_type, ha]
          exact ih t r hs hstop g' (by omega)

/-- C9: if the alias graph is acyclic, `resolve_type` terminates: with fuel
at least the number of alias entries the walk from any name reaches a fixed
result `r` that is not itself an alias (`aliasStep env r = none`). -/
theorem c9_resolve_type_terminates (env : List (String × String)) (n : String)
    (hacyc : AcyclicAliases env) :
    ∃ r, aliasStep env r = none ∧
      ∀ g, env.length ≤ g → resolve_type env g n = r := by
  by_cases hkey : ∃ k, k ≤ env.length ∧
      ∃ r, stepN env k n = some r ∧ aliasStep env r = none
  · obtain ⟨k, hk, r, hstep, hstop⟩ := hkey
    exact ⟨r, hstop,
      fun g hg => resolve_type_run env k n r hstep hstop g (le_trans hk hg)⟩
  · exfalso
    push_neg at hkey
    have hdef : ∀ k, k ≤ env.length + 1 → ∃ r, stepN env k n = some r := by
      intro k
      induction k with
      | zero => intro _; exact ⟨n, rfl⟩
      | succ k ih =>
          intro hk
          obtain ⟨r, hr⟩ := ih (by omega)
          have hne := hkey k (by omega) r hr
          rcases ha : aliasStep env r with _ | t
          · exact absurd ha hne
          · refine ⟨t, ?_⟩
            rw [stepN_add env k 1 n]
            rw [hr]
            simp [stepN, ha]
    let f : Fin (env.length + 1) → String :=
      fun i => (hdef i.1 (le_of_lt i.isLt)).choose
    have hf : ∀ i : Fin (env.length + 1), stepN env i.1 n = some (f i) :=
      fun i => (hdef i.1 (le_of_lt i.isLt)).choose_spec
    have hkeysf : ∀ i : Fin (env.length + 1), f i ∈ env.map Prod.fst := by
      intro i
      exact aliasStep_ne_none_mem
        (hkey i.1 (Nat.lt_succ_iff.mp i.isLt) (f i) (hf i))
    have hpair : ∀ i j : Fin (env.length + 1), i.1 < j.1 → f i ≠ f j := by
      intro i j hlt heq
      have h2 : stepN env (i.1 + (j.1 - i.1)) n = some (f j) := by
        rw [Nat.add_sub_cancel' (le_of_lt hlt)]
        exact hf j
      rw [stepN_add env i.1 (j.1 - i.1) n, hf i] at h2
      simp only [Option.some_bind] at h2
      rw [← heq] at h2
      exact hacyc (f i) (j.1 - i.1) (by omega) h2
    have hinj : Set.InjOn f ↑(Finset.univ : Finset (Fin (env.length + 1))) := by
      intro i _ j _ hij
      by_contra hne
      rcases Nat.lt_or_ge i.1 j.1 with h | h
      · exact hpair i j h hij
      · have : j.1 < i.1 := by
          rcases Nat.eq_or_lt_of_le h with he | hl
          · exact absurd (Fin.ext he.symm) hne
          · exact hl
        exact hpair j i this hij.symm
    have hcard := Finset.card_le_card_of_injOn f
      (fun i _ => List.mem_toFinset.mpr (hkeysf i)) hinj
    rw [Finset.card_univ, Fintype.card_fin] at hcard
    have hle := List.toFinset_card_le (env.map Prod.fst)
    rw [List.length_map] at hle
    omega

/-- A rank function decreasing along every alias edge certifies
acyclicity. -/
theorem acyclic_of_rank (env : List (String × String)) (f : String → Nat)
    (h : ∀ p ∈ env, f p.2 < f p.1) : AcyclicAliases env := by
  have hstep : ∀ (k : Nat) (n m : String),
      stepN env k n = some m → 0 < k → f m < f n := by
    intro k
    induction k with
    | zero => intro n m _ h0; omega
    | succ k ih =>
        intro n m hs _
        simp only [stepN] at hs
        rcases ha : aliasStep env n with _ | t
        · rw [ha] at hs; exact absurd hs (by simp)
        · rw [ha] at hs
          simp only [Option.some_bind] at hs
          have h1 : f t < f n := by
            rcases lookupD_mem ha with ⟨q, hq, hq1, hq2⟩
            have := h q hq
            rw [hq1, hq2] at this
            exact this
          rcases Nat.eq_zero_or_pos k with hk | hk
          · subst hk
            simp only [stepN, Option.some_inj] at hs
            subst hs
            exact h1
          · exact lt_trans (ih t m hs hk) h1
  intro n k hk hs
  exact absurd (hstep k n n hs hk) (by omega)

/-- A concrete promoted-alias chain: `VkA → VkB → uint32_t`. -/
def c9env : List (String × String) := [("VkA", "VkB"), ("VkB", "uint32_t")]

/-- A rank witnessing that `c9env` is a DAG. -/
def c9rank (s : String) : Nat :=
  if s = "VkA" then 2 else if s = "VkB" then 1 else 0

/-- C9 witness: on the concrete acyclic two-alias chain, resolution from
`VkA` terminates at `uint32_t`, which is not an alias. -/
theorem c9_witness :
    resolve_type c9env 2 "VkA" = "uint32_t" ∧
      aliasStep c9env "uint32_t" = none := by
  obtain ⟨r, hstop, hrun⟩ :=
    c9_resolve_type_terminates c9env "VkA"
      (acyclic_of_rank c9env c9rank (by decide))
  have h2 : resolve_type c9env 2 "VkA" = r := hrun 2 (by decide)
  have hcomp : resolve_type c9env 2 "VkA" = "uint32_t" := rfl
  rw [h2] at hcomp
  exact ⟨by rw [h2, ← hcomp], by rw [← hcomp]; exact hstop⟩

/-! ### C10 — `Registry.__parse_commands` alias handling
(vkapi.py lines 889-901)

Command objects live in an append-only store; the `commands` dict maps
names to store indices, so two names bound to the same index are bound to
the identical Python object.  Only the object's `name` attribute (set from
`proto/name`) matters to the claim; its other attributes are carried by the
element in the earlier `Command` embedding and are irrelevant here. -/

/-- A `commands/command` element: a definition (keyed and named by its
`proto/name`) or an alias entry (`name=` / `alias=` attributes). -/
inductive CommandElemN where
  | cmd (protoName : String)
  | aliasOf (name target : String)
deriving DecidableEq, Repr

/-- A stored `Command` object, by its `name` attribute. -/
structure CommandObj where
  cname : String
deriving DecidableEq, Repr

/-- The mutable state of `__parse_commands`: the object store and the
`commands` dict (name → store index). -/
structure CommandsState where
  store : List CommandObj
  cmap : List (String × Nat)
deriving DecidableEq, Repr

/-- One loop iteration of `__parse_commands`: a definition allocates a new
`Command` and binds its proto name; an alias entry binds the alias name to
`self.commands[alias]` — the same store index.  `none` models the
`KeyError` when the alias target is not yet bound. -/
def parseCommandsStep (st : CommandsState) (e : CommandElemN) :
    Option CommandsState :=
  match e with
  | .cmd pname =>
      some ⟨st.store ++ [⟨pname⟩], dictInsert st.cmap pname st.store.length⟩
  | .aliasOf name target =>
      match lookupD target st.cmap with
      | some i => some ⟨st.store, dictInsert st.cmap name i⟩
      | none => none

/-- The `for ce in root.findall('commands/command')` loop. -/
def parseCommandsFrom (st : CommandsState) :
    List CommandElemN → Option CommandsState
  | [] => some st
  | e :: rest =>
      match parseCommandsStep st e with
      | some st1 => parseCommandsFrom st1 rest
      | none => none

/-- Embedding of `__parse_commands`' dict-building phase. -/
def parseCommands (elems : List CommandElemN) : Option CommandsState :=
  parseCommandsFrom ⟨[], []⟩ elems

/-- The `commands` dict key an element binds. -/
def bindingName : CommandElemN → String
  | .cmd p => p
  | .aliasOf n _ => n

theorem lookupD_append_of_some {α : Type} {k : String}
    {l l2 : List (String × α)} {v : α} (h : lookupD k l = some v) :
    lookupD k (l ++ l2) = some v := by
  induction l with
  | nil => simp [lookupD, List.find?] at h
  | cons q l ih =>
      unfold lookupD at h ⊢
      simp only [List.cons_append, List.find?] at h ⊢
      rcases hd : decide (q.1 = k) with _ | _
      · rw [hd] at h
        exact ih h
      · rw [hd] at h
        simpa using h

theorem lookupD_append_right {α : Type} {k : String}
    {l l2 : List (String × α)} (h : k ∉ l.map Prod.fst) :
    lookupD k (l ++ l2) = lookupD k l2 := by
  induction l with
  | nil => simp
  | cons q l ih =>
      simp only [List.map_cons, List.mem_cons] at h
      push_neg at h
      unfold lookupD
      simp only [List.cons_append, List.find?]
      have hd : decide (q.1 = k) = false := by
        simpa using fun he => h.1 he.symm
      rw [hd]
      exact ih h.2

theorem lookupD_singleton_self {α : Type} (k : String) (v : α) :
    lookupD k [(k, v)] = some v := by
  simp [lookupD, List.find?]

/-- The key facts the induction carries about a parser state. -/
def CmdInv (st : CommandsState) : Prop :=
  ∀ p ∈ st.cmap, ∃ c, st.store.get? p.2 = some c ∧
    lookupD c.cname st.cmap = some p.2

theorem get?_append_left {α : Type} {l : List α} {i : Nat} {x : α}
    (h : l.get? i = some x) (l2 : List α) : (l ++ l2).get? i = some x := by
  rw [List.get?_append (list_get?_lt l i x h)]
  exact h

/-- Under fresh binding names, the loop never rebinds an existing dict key
and only appends to the store, so existing lookups are stable. -/
theorem parseCommandsFrom_preserves :
    ∀ (elems : List CommandElemN) (st0 st : CommandsState),
      ((st0.cmap.map Prod.fst) ++ elems.map bindingName).Nodup →
      parseCommandsFrom st0 elems = some st →
      (∀ k v, lookupD k st0.cmap = some v → lookupD k st.cmap = some v) ∧
      (∀ i c, st0.store.get? i = some c → st.store.get? i = some c) := by
  intro elems
  induction elems with
  | nil =>
      intro st0 st _ hparse
      simp only [parseCommandsFrom, Option.some_inj] at hparse
      subst hparse
      exact ⟨fun _ _ h => h, fun _ _ h => h⟩
  | cons e rest ih =>
      intro st0 st hnodup hparse
      simp only [parseCommandsFrom] at hparse
      rcases hstep : parseCommandsStep st0 e with _ | st1
      · rw [hstep] at hparse; exact absurd hparse (by simp)
      · rw [hstep] at hparse
        have hnodup' := hnodup
        rw [List.map_cons, List.append_cons] at hnodup'
        have hfresh : bindingName e ∉ st0.cmap.map Prod.fst := by
          have hd := List.nodup_append.mp hnodup
          intro hmem0
          exact hd.2.2 hmem0 (by simp)
        have hone : (∀ k v, lookupD k st0.cmap = some v →
              lookupD k st1.cmap = some v) ∧
            (∀ i c, st0.store.get? i = some c →
              st1.store.get? i = some c) ∧
            st1.cmap.map Prod.fst =
              st0.cmap.map Prod.fst ++ [bindingName e] := by
          rcases e with pname | ⟨name, tgt⟩
          · simp only [parseCommandsStep, Option.some_inj] at hstep
            have hfr : pname ∉ st0.cmap.map Prod.fst := hfresh
            rw [dictInsert_of_not_mem _ hfr] at hstep
            refine ⟨?_, ?_, ?_⟩
            · intro k v h
              rw [← hstep]
              exact lookupD_append_of_some h
            · intro i c h
              rw [← hstep]
              exact get?_append_left h _
            · rw [← hstep, List.map_append]
              rfl
          · simp only [parseCommandsStep] at hstep
            rcases hl : lookupD tgt st0.cmap with _ | i
            · rw [hl] at hstep; exact absurd hstep (by simp)
            · rw [hl] at hstep
              simp only [Option.some_inj] at hstep
              have hfr : name ∉ st0.cmap.map Prod.fst := hfresh
              rw [dictInsert_of_not_mem _ hfr] at hstep
              refine ⟨?_, ?_, ?_⟩
              · intro k v h
                rw [← hstep]
                exact lookupD_append_of_some h
              · intro i' c h
                rw [← hstep]
                exact h
              · rw [← hstep, List.map_append]
                rfl
        have hnodup1 :
            ((st1.cmap.map Prod.fst) ++ rest.map bindingName).Nodup := by
          rw [hone.2.2]
          exact hnodup'
        have hrest := ih st1 st hnodup1 hparse
        exact ⟨fun k v h => hrest.1 k v (hone.1 k v h),
          fun i c h => hrest.2 i c (hone.2.1 i c h)⟩

/-- Generalized induction over the element list: from any state whose dict
keys are disjoint from (and jointly unique with) the remaining binding
names, every alias element ends up bound to the very index of its target,
whose stored object keeps a distinct canonical name also bound to that
index. -/
theorem parseCommandsFrom_alias :
    ∀ (elems : List CommandElemN) (st0 st : CommandsState),
      ((st0.cmap.map Prod.fst) ++ elems.map bindingName).Nodup →
      CmdInv st0 →
      parseCommandsFrom st0 elems = some st →
      ∀ k target, CommandElemN.aliasOf k target ∈ elems →
        ∃ i c, lookupD k st.cmap = some i ∧
          lookupD target st.cmap = some i ∧
          st.store.get? i = some c ∧ c.cname ≠ k ∧
          lookupD c.cname st.cmap = some i := by
  intro elems
  induction elems with
  | nil =>
      intro st0 st _ _ _ k target hmem
      exact absurd hmem (List.not_mem_nil _)
  | cons e rest ih =>
      intro st0 st hnodup hinv hparse k target hmem
      simp only [parseCommandsFrom] at hparse
      rcases hstep : parseCommandsStep st0 e with _ | st1
      · rw [hstep] at hparse; exact absurd hparse (by simp)
      · rw [hstep] at hparse
        -- the head's binding name is fresh for st0's keys
        have hnodup' := hnodup
        rw [List.map_cons, List.append_cons] at hnodup'
        have hfresh : bindingName e ∉ st0.cmap.map Prod.fst := by
          have hd := List.nodup_append.mp hnodup
          intro hmem0
          exact hd.2.2 hmem0 (by simp)
        -- the next state's keys are st0's keys plus the head's name
        have hkeys1 : st1.cmap.map Prod.fst =
            st0.cmap.map Prod.fst ++ [bindingName e] := by
          rcases e with pname | ⟨name, tgt⟩
          · simp only [parseCommandsStep, Option.some_inj] at hstep
            have hfr : pname ∉ st0.cmap.map Prod.fst := hfresh
            rw [← hstep]
            rw [dictInsert_of_not_mem _ hfr, List.map_append]
            rfl
          · simp only [parseCommandsStep] at hstep
            rcases hl : lookupD tgt st0.cmap with _ | i
            · rw [hl] at hstep; exact absurd hstep (by simp)
            · rw [hl] at hstep
              simp only [Option.some_inj] at hstep
              have hfr : name ∉ st0.cmap.map Prod.fst := hfresh
              rw [← hstep]
              rw [dictInsert_of_not_mem _ hfr, List.map_append]
              rfl
        have hnodup1 :
            ((st1.cmap.map Prod.fst) ++ rest.map bindingName).Nodup := by
          rw [hkeys1]
          exact hnodup'
        -- the next state satisfies the invariant
        have hinv1 : CmdInv st1 := by
          rcases e with pname | ⟨name, tgt⟩
          · simp only [parseCommandsStep, Option.some_inj] at hstep
            have hfr : pname ∉ st0.cmap.map Prod.fst := hfresh
            rw [dictInsert_of_not_mem _ hfr] at hstep
            intro p hp
            rw [← hstep] at hp
            simp only at hp
            rcases List.mem_append.mp hp with hp0 | hp0
            · obtain ⟨c, hc1, hc2⟩ := hinv p hp0
              refine ⟨c, ?_, ?_⟩
              · rw [← hstep]
                exact get?_append_left hc1 _
              · rw [← hstep]
                exact lookupD_append_of_some hc2
            · simp only [List.mem_singleton] at hp0
              subst hp0
              refine ⟨⟨pname⟩, ?_, ?_⟩
              · rw [← hstep]
                simp
              · rw [← hstep]
                simp only
                rw [lookupD_append_right hfr, lookupD_singleton_self]
          · simp only [parseCommandsStep] at hstep
            rcases hl : lookupD tgt st0.cmap with _ | i
            · rw [hl] at hstep; exact absurd hstep (by simp)
            · rw [hl] at hstep
              simp only [Option.some_inj] at hstep
              have hfr : name ∉ st0.cmap.map Prod.fst := hfresh
              rw [dictInsert_of_not_mem _ hfr] at hstep
              intro p hp
              rw [← hstep] at hp
              simp only at hp
              rcases List.mem_append.mp hp with hp0 | hp0
              · obtain ⟨c, hc1, hc2⟩ := hinv p hp0
                refine ⟨c, ?_, ?_⟩
                · rw [← hstep]; exact hc1
                · rw [← hstep]
                  exact lookupD_append_of_some hc2
              · simp only [List.mem_singleton] at hp0
                subst hp0
                rcases lookupD_mem hl with ⟨q, hq, hq1, hq2⟩
                obtain ⟨c, hc1, hc2⟩ := hinv q hq
                rw [hq2] at hc1 hc2
                refine ⟨c, ?_, ?_⟩
                · rw [← hstep]; exact hc1
                · rw [← hstep]
                  exact lookupD_append_of_some hc2
        rcases List.mem_cons.mp hmem with hhead | htail
        · -- the alias element is the head
          subst hhead
          simp only [parseCommandsStep] at hstep
          rcases hl : lookupD target st0.cmap with _ | i
          · rw [hl] at hstep; exact absurd hstep (by simp)
          · rw [hl] at hstep
            simp only [Option.some_inj] at hstep
            -- dig out the canonical object of the target
            rcases lookupD_mem hl with ⟨q, hq, hq1, hq2⟩
            obtain ⟨c, hc1, hc2⟩ := hinv q hq
            rw [hq2] at hc1 hc2
            have hcname_mem : c.cname ∈ st0.cmap.map Prod.fst := by
              rcases lookupD_mem hc2 with ⟨q', hq', hq'1, _⟩
              exact hq'1 ▸ List.mem_map_of_mem Prod.fst hq'
            have hfr : k ∉ st0.cmap.map Prod.fst := hfresh
            have hckne : c.cname ≠ k := by
              intro he
              rw [he] at hcname_mem
              exact hfr hcname_mem
            -- facts about st1
            have hins : st1.cmap = st0.cmap ++ [(k, i)] := by
              rw [← hstep]
              exact dictInsert_of_not_mem _ hfr
            have h1 : lookupD k st1.cmap = some i := by
              rw [hins, lookupD_append_right hfr, lookupD_singleton_self]
            have h2 : lookupD target st1.cmap = some i := by
              rw [hins]
              exact lookupD_append_of_some hl
            have h3 : st1.store.get? i = some c := by
              rw [← hstep]; exact hc1
            have h5 : lookupD c.cname st1.cmap = some i := by
              rw [hins]
              exact lookupD_append_of_some hc2
            -- stability over the rest of the loop
            have hpres := parseCommandsFrom_preserves rest st1 st hnodup1 hparse
            exact ⟨i, c, hpres.1 k i h1, hpres.1 target i h2,
              hpres.2 i c h3, hckne, hpres.1 c.cname i h5⟩
        · exact ih st1 st hnodup1 hinv1 hparse k target htail

/-- C10: for every command element carrying an alias attribute, the
registry's commands map binds the alias name to the identical `Command`
object (the same store index) already bound to the canonical name: the
shared object's `name` differs from the alias key and is itself a key
bound to the same object. -/
theorem c10_command_alias_identity (elems : List CommandElemN)
    (st : CommandsState) (k target : String)
    (hnodup : (elems.map bindingName).Nodup)
    (hparse : parseCommands elems = some st)
    (hmem : CommandElemN.aliasOf k target ∈ elems) :
    ∃ i c, lookupD k st.cmap = some i ∧ lookupD target st.cmap = some i ∧
      st.store.get? i = some c ∧ c.cname ≠ k ∧
      lookupD c.cname st.cmap = some i :=
  parseCommandsFrom_alias elems ⟨[], []⟩ st (by simpa using hnodup)
    (fun p hp => absurd hp (List.not_mem_nil p)) hparse k target hmem

/-- A definition followed by an alias entry, as in
`<command name="vkFooKHR" alias="vkFoo"/>`. -/
def c10elems : List CommandElemN :=
  [.cmd "vkFoo", .aliasOf "vkFooKHR" "vkFoo"]

/-- The state `__parse_commands` reaches on `c10elems`. -/
def c10st : CommandsState :=
  ⟨[⟨"vkFoo"⟩], [("vkFoo", 0), ("vkFooKHR", 0)]⟩

/-- C10 witness: on the concrete two-element command list, the alias key
`vkFooKHR` and the canonical key `vkFoo` are bound to the same stored
object, whose name is `vkFoo ≠ vkFooKHR`. -/
theorem c10_witness :
    lookupD "vkFooKHR" c10st.cmap = some 0 ∧
      lookupD "vkFoo" c10st.cmap = some 0 ∧
      c10st.store.get? 0 = some ⟨"vkFoo"⟩ ∧
      ("vkFoo" : String) ≠ "vkFooKHR" := by
  obtain ⟨i, c, h1, h2, h3, h4, _⟩ :=
    c10_command_alias_identity c10elems c10st "vkFooKHR" "vkFoo"
      (by decide) rfl
      (List.mem_cons_of_mem _ (List.mem_cons_self _ _))
  have hi : i = 0 := by
    have hc : lookupD "vkFooKHR" c10st.cmap = some 0 := rfl
    rw [hc] at h1
    exact (Option.some_inj.mp h1).symm
  subst hi
  have hc3 : c10st.store.get? 0 = some ⟨"vkFoo"⟩ := rfl
  rw [hc3] at h3
  have hcc : c = ⟨"vkFoo"⟩ := (Option.some_inj.mp h3).symm
  subst hcc
  exact ⟨h1, h2, hc3, h4⟩

end VkSpec
